import Mathlib

/- Verification of the rule-DSL compiler and the shader import preprocessor of a
   GPU cellular-automaton playground.  The embedded Rust sources are
   crates/game_of_life_sim/src/dsl.rs (the DSL and its compiler to WGSL text)
   and src/shaders.rs (the ShaderImportProcessor).  Strings are modelled as
   Lean String values (lists of characters); the file system is modelled as a
   partial map from path strings to file contents. -/

set_option maxHeartbeats 1000000
set_option maxRecDepth 100000

/-! Text utilities modelling the Rust string primitives used by the code. -/

/-- Whitespace test matching the regex character class \s
    (Unicode White_Space property), used by both directive regexes. -/
def isWs (c : Char) : Bool :=
  let n := c.toNat
  n = 0x20 || (0x9 ≤ n && n ≤ 0xd) || n = 0x85 || n = 0xa0 || n = 0x1680 ||
  (0x2000 ≤ n && n ≤ 0x200a) || n = 0x2028 || n = 0x2029 || n = 0x202f ||
  n = 0x205f || n = 0x3000

/-- Does the list s start with the pattern pat? -/
def listStartsWith : List Char → List Char → Bool
  | [], _ => true
  | _ :: _, [] => false
  | p :: ps, c :: cs => p == c && listStartsWith ps cs

/-- Split a character list at every newline character; the result always has
    at least one (possibly empty) segment, and no segment contains a newline. -/
def splitOnNl : List Char → List (List Char)
  | [] => [[]]
  | c :: cs =>
    if c = '\n' then [] :: splitOnNl cs
    else
      match splitOnNl cs with
      | s :: rest => (c :: s) :: rest
      | [] => [[c]]

/-- Model of Rust str::lines on one segment that was terminated by a newline:
    one trailing carriage return is stripped. -/
def rstripCR (l : List Char) : List Char :=
  if l.getLast? = some '\r' then l.dropLast else l

/-- Model of Rust str::lines: split at newlines, strip a carriage return from
    every segment that a newline terminated, and drop the final empty segment
    produced by a trailing newline. -/
def linesOf (s : List Char) : List (List Char) :=
  let segs := splitOnNl s
  (segs.dropLast.map rstripCR) ++
    (match segs.getLast? with
     | some [] => []
     | some l => [l]
     | none => [])

/-- Lines of a string, as strings. -/
def strLines (s : String) : List String :=
  (linesOf s.data).map String.mk

/-- Substring test: does s contain pat as a contiguous sublist? -/
def containsSub (pat : List Char) : List Char → Bool
  | [] => listStartsWith pat []
  | c :: cs => listStartsWith pat (c :: cs) || containsSub pat cs

/-- Number of positions of s at which pat occurs. -/
def countOcc (pat : List Char) : List Char → Nat
  | [] => if listStartsWith pat [] then 1 else 0
  | c :: cs => (if listStartsWith pat (c :: cs) then 1 else 0) + countOcc pat cs

/-- Fuel-indexed engine of Rust str::replace: replace every non-overlapping
    occurrence of pat, scanning left to right.  The pattern is assumed
    nonempty (all call sites in the embedded code use nonempty patterns), so
    fuel equal to the length of the subject suffices. -/
def replaceFuel (pat rep : List Char) : Nat → List Char → List Char
  | _, [] => []
  | 0, s => s
  | fuel + 1, c :: cs =>
    if listStartsWith pat (c :: cs) then
      rep ++ replaceFuel pat rep fuel ((c :: cs).drop pat.length)
    else
      c :: replaceFuel pat rep fuel cs

/-- Model of Rust str::replace for nonempty patterns. -/
def strReplace (s pat rep : String) : String :=
  String.mk (replaceFuel pat.data rep.data s.data.length s.data)

/-- Decimal digit character, for d < 10. -/
def digitChar10 (d : Nat) : Char := Char.ofNat (48 + d)

/-- Decimal digits of a positive number, most significant first (fuel-indexed;
    fuel equal to the number itself always suffices). -/
def decChars : Nat → Nat → List Char
  | 0, _ => []
  | fuel + 1, n =>
    if n = 0 then [] else decChars fuel (n / 10) ++ [digitChar10 (n % 10)]

/-- Decimal representation of a natural number, modelling the Display
    formatting of a Rust u32 value. -/
def decRepr (n : Nat) : List Char :=
  if n = 0 then ['0'] else decChars n n

/-! The DSL of crates/game_of_life_sim/src/dsl.rs. -/

/-- Expressions of the cellular-automaton DSL (enum Expr in dsl.rs).  The u32
    payload is modelled as a natural number; the compiler only formats it. -/
inductive Expr where
  | U32 (val : Nat)
  | Alive
  | Neighbors
  | Gt (lhs rhs : Expr)
  | Gte (lhs rhs : Expr)
  | Lt (lhs rhs : Expr)
  | Lte (lhs rhs : Expr)
  | And (lhs rhs : Expr)
  | Or (lhs rhs : Expr)
  | Equal (lhs rhs : Expr)
deriving DecidableEq, Repr

/-- Expr::to_shader from dsl.rs: compile an expression to a WGSL text
    fragment. -/
def Expr.to_shader : Expr → String
  | .U32 val => String.mk (decRepr val) ++ "u"
  | .Alive => "is_alive"
  | .Neighbors => "num_neighbors"
  | .Gt lhs rhs => "u32((" ++ lhs.to_shader ++ ") > (" ++ rhs.to_shader ++ "))"
  | .Gte lhs rhs => "u32((" ++ lhs.to_shader ++ ") >= (" ++ rhs.to_shader ++ "))"
  | .Lt lhs rhs => "u32((" ++ lhs.to_shader ++ ") < (" ++ rhs.to_shader ++ "))"
  | .Lte lhs rhs => "u32((" ++ lhs.to_shader ++ ") <= (" ++ rhs.to_shader ++ "))"
  | .And lhs rhs => "((" ++ lhs.to_shader ++ ") & (" ++ rhs.to_shader ++ "))"
  | .Or lhs rhs => "((" ++ lhs.to_shader ++ ") | (" ++ rhs.to_shader ++ "))"
  | .Equal lhs rhs => "u32((" ++ lhs.to_shader ++ ") == (" ++ rhs.to_shader ++ "))"

/-- Statements of the cellular-automaton DSL (enum Statement in dsl.rs). -/
inductive Statement where
  | Void
  | SetResult (expr : Expr)
  | IfThenElse (condition : Expr) (if_true_then if_false_then : Statement)
deriving DecidableEq, Repr

/-- Statement::to_shader from dsl.rs: compile a statement to a WGSL statement
    (braces written with hexadecimal escapes). -/
def Statement.to_shader : Statement → String
  | .Void => ""
  | .SetResult expr => "result = " ++ expr.to_shader ++ ";"
  | .IfThenElse condition if_true_then if_false_then =>
    "if (" ++ condition.to_shader ++ ") \x7b " ++ if_true_then.to_shader ++
      " \x7d else \x7b " ++ if_false_then.to_shader ++ " \x7d"

/-- rulesets::conways_game_of_life from dsl.rs: survive on 2 or 3 neighbours,
    be born on 3. -/
def conways_game_of_life : Statement :=
  .IfThenElse .Alive
    (.SetResult (.Or (.Equal .Neighbors (.U32 2)) (.Equal .Neighbors (.U32 3))))
    (.SetResult (.Equal .Neighbors (.U32 3)))

/-- Structural depth of an expression tree. -/
def Expr.depth : Expr → Nat
  | .U32 _ | .Alive | .Neighbors => 1
  | .Gt lhs rhs | .Gte lhs rhs | .Lt lhs rhs | .Lte lhs rhs
  | .And lhs rhs | .Or lhs rhs | .Equal lhs rhs => 1 + max lhs.depth rhs.depth

/-- Structural depth of a statement tree (counting the expressions it holds,
    because the compiler recurses into them). -/
def Statement.depth : Statement → Nat
  | .Void => 1
  | .SetResult expr => 1 + expr.depth
  | .IfThenElse condition if_true_then if_false_then =>
    1 + max condition.depth (max if_true_then.depth if_false_then.depth)

/-- Fuel-indexed variant of Expr::to_shader, recording the recursion depth the
    compiler needs: each recursive call consumes one unit of fuel and fuel
    exhaustion is an explicit failure value. -/
def Expr.to_shader_fuel : Nat → Expr → Option String
  | 0, _ => none
  | fuel + 1, e =>
    match e with
    | .U32 val => some (String.mk (decRepr val) ++ "u")
    | .Alive => some "is_alive"
    | .Neighbors => some "num_neighbors"
    | .Gt lhs rhs => do
      let a ← Expr.to_shader_fuel fuel lhs
      let b ← Expr.to_shader_fuel fuel rhs
      some ("u32((" ++ a ++ ") > (" ++ b ++ "))")
    | .Gte lhs rhs => do
      let a ← Expr.to_shader_fuel fuel lhs
      let b ← Expr.to_shader_fuel fuel rhs
      some ("u32((" ++ a ++ ") >= (" ++ b ++ "))")
    | .Lt lhs rhs => do
      let a ← Expr.to_shader_fuel fuel lhs
      let b ← Expr.to_shader_fuel fuel rhs
      some ("u32((" ++ a ++ ") < (" ++ b ++ "))")
    | .Lte lhs rhs => do
      let a ← Expr.to_shader_fuel fuel lhs
      let b ← Expr.to_shader_fuel fuel rhs
      some ("u32((" ++ a ++ ") <= (" ++ b ++ "))")
    | .And lhs rhs => do
      let a ← Expr.to_shader_fuel fuel lhs
      let b ← Expr.to_shader_fuel fuel rhs
      some ("((" ++ a ++ ") & (" ++ b ++ "))")
    | .Or lhs rhs => do
      let a ← Expr.to_shader_fuel fuel lhs
      let b ← Expr.to_shader_fuel fuel rhs
      some ("((" ++ a ++ ") | (" ++ b ++ "))")
    | .Equal lhs rhs => do
      let a ← Expr.to_shader_fuel fuel lhs
      let b ← Expr.to_shader_fuel fuel rhs
      some ("u32((" ++ a ++ ") == (" ++ b ++ "))")

/-- Fuel-indexed variant of Statement::to_shader. -/
def Statement.to_shader_fuel : Nat → Statement → Option String
  | 0, _ => none
  | fuel + 1, s =>
    match s with
    | .Void => some ""
    | .SetResult expr => do
      let e ← Expr.to_shader_fuel fuel expr
      some ("result = " ++ e ++ ";")
    | .IfThenElse condition if_true_then if_false_then => do
      let c ← Expr.to_shader_fuel fuel condition
      let t ← Statement.to_shader_fuel fuel if_true_then
      let f ← Statement.to_shader_fuel fuel if_false_then
      some ("if (" ++ c ++ ") \x7b " ++ t ++ " \x7d else \x7b " ++ f ++ " \x7d")

example : conways_game_of_life.to_shader =
    "if (is_alive) \x7b result = ((u32((num_neighbors) == (2u))) | (u32((num_neighbors) == (3u)))); \x7d else \x7b result = u32((num_neighbors) == (3u)); \x7d" := by
  decide

/-! The shader import preprocessor of src/shaders.rs. -/

/-- Parse result of scanning one file (struct ShaderImports in shaders.rs). -/
structure ShaderImports where
  imports : List String
  import_path : Option String
deriving DecidableEq, Repr

/-- Shared shape of the two directive regexes: skip leading whitespace, demand
    a hash sign, skip whitespace.  Models the deterministic regex prefix
    caret-ws-star-hash-ws-star (no backtracking can occur because the first
    character of either keyword is not whitespace). -/
def afterHash (line : List Char) : Option (List Char) :=
  match line.dropWhile isWs with
  | '#' :: rest => some (rest.dropWhile isWs)
  | _ => none

/-- Model of the regex tail ws-plus-dot-plus with a capture group: at least
    one whitespace character, then a greedy nonempty capture running to the
    end of the line (the subject contains no newline).  When everything after
    the keyword is whitespace, greedy matching backtracks so that the capture
    becomes the final whitespace character. -/
def tailCapture (r : List Char) : Option (List Char) :=
  match r with
  | [] => none
  | c :: rest =>
    if isWs c then
      let body := (c :: rest).dropWhile isWs
      if body.isEmpty then
        if rest.isEmpty then none else some ((c :: rest).drop rest.length)
      else some body
    else none

/-- Capture of a directive regex with keyword kw, as compiled in
    ShaderImportProcessor::default: whitespace, hash, whitespace, the keyword,
    whitespace, and a greedy capture. -/
def directiveCapture (kw : String) (line : List Char) : Option (List Char) :=
  match afterHash line with
  | none => none
  | some r =>
    if listStartsWith kw.data r then tailCapture (r.drop kw.data.length)
    else none

/-- Capture of the import directive regex on one line, as a string. -/
def importCaptureLine (line : String) : Option String :=
  (directiveCapture "import" line.data).map String.mk

/-- Capture of the define_import_path directive regex on one line. -/
def definePathCaptureLine (line : String) : Option String :=
  (directiveCapture "define_import_path" line.data).map String.mk

/-- One step of the scanning loop of get_imports_from_str: the import regex is
    tried first, the define_import_path regex only on lines the first regex
    rejected; an import is pushed at the back, a path overwrites. -/
def scanLine (si : ShaderImports) (line : String) : ShaderImports :=
  match importCaptureLine line with
  | some cap => { si with imports := si.imports ++ [cap] }
  | none =>
    match definePathCaptureLine line with
    | some cap => { si with import_path := some cap }
    | none => si

/-- ShaderImportProcessor::get_imports_from_str from shaders.rs. -/
def get_imports_from_str (shader : String) : ShaderImports :=
  (strLines shader).foldl scanLine ⟨[], none⟩

/-- Observable outcome of the assembler: a resolved text, a propagated I/O
    error (root file unreadable), or unconditional process termination
    (import target unreadable, std::process::exit(1)). -/
inductive LoadResult where
  | ok (text : String)
  | ioError
  | processExit
deriving DecidableEq, Repr

/-- Search directory for import targets, as computed inside the loop of
    load_shader_inner. -/
def importDir (root : String) (import_path : Option String) : String :=
  match import_path with
  | some path => root ++ "/" ++ path
  | none => root

/-- The import-expansion loop of load_shader_inner: for each recorded import
    target in order, read the target file (terminating the process on
    failure) and replace every occurrence of the directive text
    "#import target" with the file contents. -/
def expandImports (fs : String → Option String) (dir : String) :
    List String → String → LoadResult
  | [], contents => .ok contents
  | imp :: rest, contents =>
    match fs (dir ++ "/" ++ imp) with
    | none => .processExit
    | some import_contents =>
      expandImports fs dir rest
        (strReplace contents ("#import " ++ imp) import_contents)

/-- ShaderImportProcessor::load_shader_inner from shaders.rs, over an explicit
    file system map; root stands for the build-time constant
    CARGO_MANIFEST_DIR/assets. -/
def load_shader_inner (fs : String → Option String) (root shader_path : String) :
    LoadResult :=
  match fs (root ++ "/" ++ shader_path) with
  | none => .ioError
  | some shader_contents =>
    let si := get_imports_from_str shader_contents
    expandImports fs (importDir root si.import_path) si.imports shader_contents

/-- ShaderImportProcessor::load_shader_with_dsl from shaders.rs, modelling the
    text handed to the shader-module primitive: the import-expanded template
    with every occurrence of the placeholder token replaced by the compiled
    rule (the optional debug dump to disk is a side write of that same text
    and is not modelled). -/
def load_shader_with_dsl (fs : String → Option String)
    (root shader_path : String) (dsl : Statement) : LoadResult :=
  match load_shader_inner fs root shader_path with
  | .ok shader_contents =>
    .ok (strReplace shader_contents "\x7bPLACEHOLDER\x7d" dsl.to_shader)
  | r => r

/-! Reference definitions written from the words of the specification, for the
    refinement claims. -/

/-- Reference expression compiler transcribed from the specification, section
    4.1: decimal literal with unsigned suffix, fixed identifiers, comparisons
    cast to u32 with fully parenthesized operands, bitwise conjunction and
    disjunction. -/
def exprSpecCompile : Expr → String
  | .U32 n => String.mk (decRepr n) ++ "u"
  | .Alive => "is_alive"
  | .Neighbors => "num_neighbors"
  | .Gt a b => "u32((" ++ exprSpecCompile a ++ ") > (" ++ exprSpecCompile b ++ "))"
  | .Gte a b => "u32((" ++ exprSpecCompile a ++ ") >= (" ++ exprSpecCompile b ++ "))"
  | .Lt a b => "u32((" ++ exprSpecCompile a ++ ") < (" ++ exprSpecCompile b ++ "))"
  | .Lte a b => "u32((" ++ exprSpecCompile a ++ ") <= (" ++ exprSpecCompile b ++ "))"
  | .And a b => "((" ++ exprSpecCompile a ++ ") & (" ++ exprSpecCompile b ++ "))"
  | .Or a b => "((" ++ exprSpecCompile a ++ ") | (" ++ exprSpecCompile b ++ "))"
  | .Equal a b => "u32((" ++ exprSpecCompile a ++ ") == (" ++ exprSpecCompile b ++ "))"

/-- Reference statement compiler transcribed from the specification, section
    4.1: empty text for Noop, a result assignment for SetResult, and a
    conditional with both branches always textually present. -/
def stmtSpecCompile : Statement → String
  | .Void => ""
  | .SetResult e => "result = " ++ exprSpecCompile e ++ ";"
  | .IfThenElse c t f =>
    "if (" ++ exprSpecCompile c ++ ") \x7b " ++ stmtSpecCompile t ++
      " \x7d else \x7b " ++ stmtSpecCompile f ++ " \x7d"

/-- Reference resolution algorithm transcribed from the specification, section
    4.2 steps 1 to 4: read the root file (propagating failure), scan it once
    for imports and an optional path override, read every import target (any
    failure terminates the process), then replace each directive text by the
    corresponding file contents, in first-seen order.  Only the root file is
    ever scanned, so the substitution is single-pass and non-recursive.
    Reading of all import targets is factored into readAll below. -/
def readAll (fs : String → Option String) (dir : String) :
    List String → Option (List String)
  | [] => some []
  | imp :: rest =>
    match fs (dir ++ "/" ++ imp) with
    | none => none
    | some ic => (readAll fs dir rest).map (ic :: ·)

/-- Reference resolution algorithm, continued: the dispatch of spec section
    4.2 steps 1 to 4 over the readAll results. -/
def resolveSpec (fs : String → Option String) (root shader_path : String) :
    LoadResult :=
  match fs (root ++ "/" ++ shader_path) with
  | none => .ioError
  | some contents =>
    let si := get_imports_from_str contents
    let dir := importDir root si.import_path
    match readAll fs dir si.imports with
    | none => .processExit
    | some reads =>
      .ok ((si.imports.zip reads).foldl
        (fun acc pr => strReplace acc ("#import " ++ pr.1) pr.2) contents)

/-! Basic lemmas about the text utilities. -/

lemma listStartsWith_iff : ∀ (pat s : List Char),
    listStartsWith pat s = true ↔ pat <+: s := by
  intro pat
  induction pat with
  | nil => intro s; simp [listStartsWith]
  | cons p ps ih =>
    intro s
    cases s with
    | nil => simp [listStartsWith]
    | cons c cs => simp [listStartsWith, List.cons_prefix_cons, ih]

lemma containsSub_iff : ∀ (s pat : List Char),
    containsSub pat s = true ↔ pat <:+: s := by
  intro s
  induction s with
  | nil =>
    intro pat
    cases pat with
    | nil => simp [containsSub, listStartsWith]
    | cons p ps => simp [containsSub, listStartsWith]
  | cons c cs ih =>
    intro pat
    simp [containsSub, listStartsWith_iff, ih, List.infix_cons_iff]

lemma decChars_zero (f : Nat) : decChars f 0 = [] := by
  cases f <;> simp [decChars]

lemma toDigitsCore_eq_decChars : ∀ (n : Nat), ∀ (fuel fuel2 : Nat) (acc : List Char),
    0 < n → n ≤ fuel → n ≤ fuel2 →
    Nat.toDigitsCore 10 fuel n acc = decChars fuel2 n ++ acc := by
  intro n
  induction n using Nat.strong_induction_on with
  | _ n ih =>
    intro fuel fuel2 acc hpos hf hf2
    match fuel, fuel2 with
    | 0, _ => omega
    | _, 0 => omega
    | f + 1, g + 1 =>
      have hdig : ∀ d : Nat, d < 10 → Nat.digitChar d = digitChar10 d := by decide
      simp only [Nat.toDigitsCore, decChars]
      have hn : n ≠ 0 := by omega
      rw [hdig (n % 10) (Nat.mod_lt n (by omega))]
      by_cases h0 : n / 10 = 0
      · simp [h0, hn, decChars_zero]
      · simp only [h0, if_false, hn]
        have hlt : n / 10 < n := Nat.div_lt_self (by omega) (by omega)
        rw [ih (n / 10) hlt f g (digitChar10 (n % 10) :: acc) (by omega) (by omega) (by omega)]
        simp

/-- The hand-rolled decimal rendering agrees with the standard decimal
    rendering of natural numbers. -/
lemma decRepr_eq_repr (n : Nat) : String.mk (decRepr n) = Nat.repr n := by
  unfold Nat.repr Nat.toDigits
  by_cases h : n = 0
  · subst h; rfl
  · rw [toDigitsCore_eq_decChars n (n + 1) n [] (by omega) (by omega) (by omega)]
    simp [decRepr, h, List.asString]

/-! Totality of the DSL compiler with recursion depth equal to tree depth. -/

lemma Expr.depth_pos (e : Expr) : 0 < e.depth := by
  cases e <;> simp [Expr.depth]

lemma expr_to_shader_fuel_complete :
    ∀ (e : Expr) (fuel : Nat), e.depth ≤ fuel →
      Expr.to_shader_fuel fuel e = some e.to_shader := by
  intro e
  induction e with
  | U32 val =>
    intro fuel h
    cases fuel with
    | zero => simp [Expr.depth] at h
    | succ f => simp [Expr.to_shader_fuel, Expr.to_shader]
  | Alive =>
    intro fuel h
    cases fuel with
    | zero => simp [Expr.depth] at h
    | succ f => simp [Expr.to_shader_fuel, Expr.to_shader]
  | Neighbors =>
    intro fuel h
    cases fuel with
    | zero => simp [Expr.depth] at h
    | succ f => simp [Expr.to_shader_fuel, Expr.to_shader]
  | Gt lhs rhs ihl ihr =>
    intro fuel h
    cases fuel with
    | zero => simp [Expr.depth] at h
    | succ f =>
      simp only [Expr.depth] at h
      rw [Expr.to_shader_fuel, ihl f (by omega), ihr f (by omega)]
      simp [Expr.to_shader]
  | Gte lhs rhs ihl ihr =>
    intro fuel h
    cases fuel with
    | zero => simp [Expr.depth] at h
    | succ f =>
      simp only [Expr.depth] at h
      rw [Expr.to_shader_fuel, ihl f (by omega), ihr f (by omega)]
      simp [Expr.to_shader]
  | Lt lhs rhs ihl ihr =>
    intro fuel h
    cases fuel with
    | zero => simp [Expr.depth] at h
    | succ f =>
      simp only [Expr.depth] at h
      rw [Expr.to_shader_fuel, ihl f (by omega), ihr f (by omega)]
      simp [Expr.to_shader]
  | Lte lhs rhs ihl ihr =>
    intro fuel h
    cases fuel with
    | zero => simp [Expr.depth] at h
    | succ f =>
      simp only [Expr.depth] at h
      rw [Expr.to_shader_fuel, ihl f (by omega), ihr f (by omega)]
      simp [Expr.to_shader]
  | And lhs rhs ihl ihr =>
    intro fuel h
    cases fuel with
    | zero => simp [Expr.depth] at h
    | succ f =>
      simp only [Expr.depth] at h
      rw [Expr.to_shader_fuel, ihl f (by omega), ihr f (by omega)]
      simp [Expr.to_shader]
  | Or lhs rhs ihl ihr =>
    intro fuel h
    cases fuel with
    | zero => simp [Expr.depth] at h
    | succ f =>
      simp only [Expr.depth] at h
      rw [Expr.to_shader_fuel, ihl f (by omega), ihr f (by omega)]
      simp [Expr.to_shader]
  | Equal lhs rhs ihl ihr =>
    intro fuel h
    cases fuel with
    | zero => simp [Expr.depth] at h
    | succ f =>
      simp only [Expr.depth] at h
      rw [Expr.to_shader_fuel, ihl f (by omega), ihr f (by omega)]
      simp [Expr.to_shader]

lemma stmt_to_shader_fuel_complete :
    ∀ (s : Statement) (fuel : Nat), s.depth ≤ fuel →
      Statement.to_shader_fuel fuel s = some s.to_shader := by
  intro s
  induction s with
  | Void =>
    intro fuel h
    cases fuel with
    | zero => simp [Statement.depth] at h
    | succ f => simp [Statement.to_shader_fuel, Statement.to_shader]
  | SetResult expr =>
    intro fuel h
    cases fuel with
    | zero => simp [Statement.depth] at h
    | succ f =>
      simp only [Statement.depth] at h
      rw [Statement.to_shader_fuel, expr_to_shader_fuel_complete expr f (by omega)]
      simp [Statement.to_shader]
  | IfThenElse condition if_true_then if_false_then iht ihf =>
    intro fuel h
    cases fuel with
    | zero => simp [Statement.depth] at h
    | succ f =>
      simp only [Statement.depth] at h
      rw [Statement.to_shader_fuel,
        expr_to_shader_fuel_complete condition f (by omega),
        iht f (by omega), ihf f (by omega)]
      simp [Statement.to_shader]

/-! The compilers agree with the reference definitions from the spec. -/

lemma expr_to_shader_eq_spec (e : Expr) : e.to_shader = exprSpecCompile e := by
  induction e <;> simp [Expr.to_shader, exprSpecCompile, *]

lemma stmt_to_shader_eq_spec (s : Statement) :
    s.to_shader = stmtSpecCompile s := by
  induction s <;>
    simp [Statement.to_shader, stmtSpecCompile, expr_to_shader_eq_spec, *]

/-! Characterization of the directive scan. -/

/-- Import directive captures of a text, line by line in first-seen order with
    duplicates preserved (the reference reading of the spec). -/
def importCapturesSpec (s : String) : List String :=
  (strLines s).filterMap importCaptureLine

/-- The define_import_path captures of a text, in line order. -/
def definePathCapturesSpec (s : String) : List String :=
  (strLines s).filterMap definePathCaptureLine

lemma startsWith_head {p : Char} {ps s : List Char}
    (h : listStartsWith (p :: ps) s = true) : ∃ t, s = p :: t := by
  cases s with
  | nil => simp [listStartsWith] at h
  | cons c cs =>
    simp only [listStartsWith, Bool.and_eq_true, beq_iff_eq] at h
    exact ⟨cs, by rw [h.1]⟩

/-- A line captured by the import regex is rejected by the define_import_path
    regex: after the shared whitespace-hash-whitespace prefix the two keywords
    demand different characters. -/
lemma import_define_disjoint {l : String} {x : String}
    (h : importCaptureLine l = some x) : definePathCaptureLine l = none := by
  unfold importCaptureLine definePathCaptureLine directiveCapture at *
  cases hah : afterHash l.data with
  | none => simp [hah]
  | some r =>
    rw [hah] at h
    by_cases hg : listStartsWith "import".data r = true
    · have hi : "import".data = 'i' :: "mport".data := rfl
      rw [hi] at hg
      obtain ⟨t, ht⟩ := startsWith_head hg
      subst ht
      have hd : "define_import_path".data = 'd' :: "efine_import_path".data := rfl
      simp [hd, listStartsWith]
    · simp only [Bool.not_eq_true] at hg
      simp [hg] at h

/-- Last-occurrence-wins accumulator for the declared import path. -/
def lastOr : List String → Option String → Option String
  | [], old => old
  | x :: xs, _ => lastOr xs (some x)

lemma lastOr_eq_getLast? : ∀ (news : List String) (old : Option String),
    lastOr news old = match news.getLast? with | some v => some v | none => old := by
  intro news
  induction news with
  | nil => intro old; rfl
  | cons x xs ih =>
    intro old
    cases xs with
    | nil => simp [lastOr, ih]
    | cons y ys =>
      cases hg : (y :: ys).getLast? with
      | none => simp at hg
      | some v =>
        have h2 := ih old
        rw [hg] at h2
        simp only [lastOr] at h2
        simp [lastOr, List.getLast?_cons_cons, hg, h2]

/-- The scanning fold of get_imports_from_str pushes import captures in order
    and lets the last define_import_path capture win. -/
lemma foldl_scanLine : ∀ (lines : List String) (acc : ShaderImports),
    lines.foldl scanLine acc =
      ⟨acc.imports ++ lines.filterMap importCaptureLine,
        lastOr (lines.filterMap definePathCaptureLine) acc.import_path⟩ := by
  intro lines
  induction lines with
  | nil => intro acc; simp [lastOr]
  | cons l rest ih =>
    intro acc
    simp only [List.foldl_cons, List.filterMap_cons]
    cases himp : importCaptureLine l with
    | some cap =>
      rw [import_define_disjoint himp]
      rw [ih]
      simp [scanLine, himp]
    | none =>
      cases hdef : definePathCaptureLine l with
      | some cap =>
        rw [ih]
        simp [scanLine, himp, hdef, lastOr]
      | none =>
        rw [ih]
        simp [scanLine, himp, hdef]

/-! The import-expansion loop versus the reference resolution algorithm. -/

lemma expandImports_eq_readAll (fs : String → Option String) (dir : String) :
    ∀ (imports : List String) (contents : String),
      expandImports fs dir imports contents =
        match readAll fs dir imports with
        | none => .processExit
        | some reads =>
          .ok ((imports.zip reads).foldl
            (fun acc pr => strReplace acc ("#import " ++ pr.1) pr.2) contents) := by
  intro imports
  induction imports with
  | nil => intro contents; simp [expandImports, readAll]
  | cons imp rest ih =>
    intro contents
    simp only [expandImports, readAll]
    cases hfs : fs (dir ++ "/" ++ imp) with
    | none => simp
    | some ic =>
      dsimp only
      rw [ih]
      cases hrest : readAll fs dir rest with
      | none => simp
      | some reads => simp [List.zip_cons_cons]

lemma expandImports_exit_of_mem (fs : String → Option String) (dir : String) :
    ∀ (imports : List String) (contents : String) (imp : String),
      imp ∈ imports → fs (dir ++ "/" ++ imp) = none →
      expandImports fs dir imports contents = .processExit := by
  intro imports
  induction imports with
  | nil => intro contents imp hmem; simp at hmem
  | cons hd rest ih =>
    intro contents imp hmem hnone
    rcases List.mem_cons.mp hmem with heq | htl
    · subst heq
      simp [expandImports, hnone]
    · cases hfs : fs (dir ++ "/" ++ hd) with
      | none => simp [expandImports, hfs]
      | some ic =>
        simp only [expandImports, hfs]
        exact ih _ imp htl hnone

lemma expandImports_ok_reads (fs : String → Option String) (dir : String) :
    ∀ (imports : List String) (contents t : String),
      expandImports fs dir imports contents = .ok t →
      ∀ imp ∈ imports, ∃ ic, fs (dir ++ "/" ++ imp) = some ic := by
  intro imports
  induction imports with
  | nil => intro contents t _ imp hmem; simp at hmem
  | cons hd rest ih =>
    intro contents t hok imp hmem
    cases hfs : fs (dir ++ "/" ++ hd) with
    | none => simp [expandImports, hfs] at hok
    | some ic =>
      simp only [expandImports, hfs] at hok
      rcases List.mem_cons.mp hmem with heq | htl
      · exact ⟨ic, heq ▸ hfs⟩
      · exact ih _ t hok imp htl

/-! Characterization of the replace primitive. -/

lemma replaceFuel_eq_self (pat rep : List Char) :
    ∀ (s : List Char) (fuel : Nat), containsSub pat s = false →
      replaceFuel pat rep fuel s = s := by
  intro s
  induction s with
  | nil => intro fuel h; cases fuel <;> rfl
  | cons c cs ih =>
    intro fuel h
    simp only [containsSub, Bool.or_eq_false_iff] at h
    cases fuel with
    | zero => rfl
    | succ f => simp [replaceFuel, h.1, ih f h.2]


/-- String-level identity of replace when the pattern does not occur. -/
lemma strReplace_eq_self (s pat rep : String)
    (h : containsSub pat.data s.data = false) : strReplace s pat rep = s := by
  unfold strReplace
  rw [replaceFuel_eq_self pat.data rep.data s.data s.data.length h]

lemma replaceFuel_cons_neg (pat rep : List Char) (f : Nat) (c : Char)
    (cs : List Char) (h : listStartsWith pat (c :: cs) = false) :
    replaceFuel pat rep (f + 1) (c :: cs) = c :: replaceFuel pat rep f cs := by
  simp [replaceFuel, h]

lemma replaceFuel_cons_pos (pat rep : List Char) (f : Nat) (c : Char)
    (cs : List Char) (h : listStartsWith pat (c :: cs) = true) :
    replaceFuel pat rep (f + 1) (c :: cs) =
      rep ++ replaceFuel pat rep f ((c :: cs).drop pat.length) := by
  simp [replaceFuel, h]

/-- A pattern is border-free when no nonempty proper prefix of it is also a
    suffix; such patterns have unambiguous occurrence structure. -/
def borderFree (pat : List Char) : Prop :=
  ∀ k, k < pat.length → 0 < k → pat.drop k ≠ pat.take (pat.length - k)

lemma no_spanning_hit {pat : List Char} (hbf : borderFree pat)
    {a : List Char} (t : List Char) (hfree : containsSub pat a = false) :
    ∀ i, i < a.length → listStartsWith pat ((a ++ (pat ++ t)).drop i) = false := by
  intro i hi
  by_contra hcontra
  rw [Bool.not_eq_false, listStartsWith_iff] at hcontra
  rw [List.drop_append_of_le_length (by omega)] at hcontra
  have h1 : pat = ((a.drop i) ++ (pat ++ t)).take pat.length :=
    List.prefix_iff_eq_take.mp hcontra
  have hL : (a.drop i).length = a.length - i := by simp
  by_cases hcase : pat.length ≤ a.length - i
  · have h2 : ((a.drop i) ++ (pat ++ t)).take pat.length =
        (a.drop i).take pat.length :=
      List.take_append_of_le_length (by omega)
    have hpfx : pat <+: a.drop i := by
      rw [List.prefix_iff_eq_take, ← h2, ← h1]
    have hinf : pat <:+: a := hpfx.isInfix.trans (List.drop_suffix i a).isInfix
    rw [← containsSub_iff, hfree] at hinf
    exact Bool.false_ne_true hinf
  · have hlt : a.length - i < pat.length := by omega
    have h2 : pat = a.drop i ++ pat.take (pat.length - (a.length - i)) := by
      rw [List.take_append_eq_append_take] at h1
      rw [List.take_of_length_le (by omega)] at h1
      rw [List.take_append_of_le_length (by omega)] at h1
      rw [hL] at h1
      exact h1
    have hdrop : pat.drop (a.length - i) = pat.take (pat.length - (a.length - i)) := by
      conv_lhs => rw [h2]
      rw [← hL, List.drop_left]
    exact hbf (a.length - i) hlt (by omega) hdrop

lemma replaceFuel_walk (pat rep : List Char) :
    ∀ (a t : List Char) (fuel : Nat),
      (∀ i, i < a.length → listStartsWith pat ((a ++ t).drop i) = false) →
      a.length ≤ fuel →
      replaceFuel pat rep fuel (a ++ t) =
        a ++ replaceFuel pat rep (fuel - a.length) t := by
  intro a
  induction a with
  | nil => intro t fuel h hf; simp
  | cons x a' ih =>
    intro t fuel h hf
    cases fuel with
    | zero => simp at hf
    | succ f =>
      have h0 := h 0 (by simp)
      rw [List.drop_zero, List.cons_append] at h0
      rw [List.cons_append, replaceFuel_cons_neg pat rep f x (a' ++ t) h0]
      rw [ih t f (fun i hi => by
            have h1 := h (i + 1) (by simp; omega)
            rw [List.cons_append, List.drop_succ_cons] at h1
            exact h1)
          (by simp at hf; omega)]
      simp [List.cons_append, Nat.succ_sub_succ]

lemma startsWith_self_append (pat t : List Char) :
    listStartsWith pat (pat ++ t) = true := by
  rw [listStartsWith_iff]
  exact List.prefix_append pat t

lemma intercalate_cons_cons (sep a b : List Char) (l : List (List Char)) :
    List.intercalate sep (a :: b :: l) =
      a ++ sep ++ List.intercalate sep (b :: l) := by
  simp [List.intercalate, List.intersperse]

lemma intercalate_singleton (sep a : List Char) :
    List.intercalate sep [a] = a := by
  simp [List.intercalate, List.intersperse]

/-- Replacing a border-free pattern in a text assembled from pattern-free
    segments joined by the pattern rejoins the same segments with the
    replacement: every occurrence is replaced and the rest is unchanged. -/
lemma replace_intercalate (pat rep : List Char) (hne : pat ≠ [])
    (hbf : borderFree pat) :
    ∀ (parts : List (List Char)),
      (∀ x ∈ parts, containsSub pat x = false) →
      ∀ fuel, (List.intercalate pat parts).length ≤ fuel →
        replaceFuel pat rep fuel (List.intercalate pat parts) =
          List.intercalate rep parts := by
  intro parts
  induction parts with
  | nil =>
    intro h fuel hf
    simp only [List.intercalate, List.intersperse]
    cases fuel <;> rfl
  | cons s rest ih =>
    cases rest with
    | nil =>
      intro h fuel hf
      rw [intercalate_singleton, intercalate_singleton]
      exact replaceFuel_eq_self pat rep s fuel (h s (by simp))
    | cons s2 rest' =>
      intro h fuel hf
      rw [intercalate_cons_cons, List.append_assoc]
      rw [intercalate_cons_cons pat s s2 rest', List.append_assoc] at hf
      simp only [List.length_append] at hf
      have hplen : 0 < pat.length := List.length_pos.mpr hne
      rw [replaceFuel_walk pat rep s _ fuel
          (no_spanning_hit hbf _ (h s (by simp))) (by omega)]
      rw [intercalate_cons_cons rep s s2 rest', List.append_assoc]
      congr 1
      cases hf2 : fuel - s.length with
      | zero => omega
      | succ g =>
        obtain ⟨p, ps, rfl⟩ := List.exists_cons_of_ne_nil hne
        have hsw : listStartsWith (p :: ps)
            ((p :: ps) ++ List.intercalate (p :: ps) (s2 :: rest')) = true :=
          startsWith_self_append (p :: ps) _
        rw [List.cons_append] at hsw
        rw [List.cons_append, replaceFuel_cons_pos (p :: ps) rep g p _ hsw]
        have hdl : (p :: (ps ++ List.intercalate (p :: ps) (s2 :: rest'))).drop
              (p :: ps).length =
            List.intercalate (p :: ps) (s2 :: rest') := by
          rw [List.length_cons, List.drop_succ_cons, List.drop_left]
        rw [hdl]
        rw [ih (fun x hx => h x (List.mem_cons_of_mem s hx)) g
            (by simp only [List.length_cons] at hf; omega)]

/-! No doubled bitwise-operator characters in compiled expressions: the
    machinery behind the absence of logical short-circuit tokens. -/

lemma startsWith_cc_cons (c x : Char) (l : List Char) :
    listStartsWith [c, c] (x :: l) = true ↔ x = c ∧ l.head? = some c := by
  cases l with
  | nil => simp [listStartsWith]
  | cons y t =>
    simp only [listStartsWith, Bool.and_eq_true, beq_iff_eq, List.head?_cons,
      Option.some.injEq]
    constructor
    · rintro ⟨h1, h2⟩; exact ⟨h1.symm, h2.1.symm⟩
    · rintro ⟨h1, h2⟩; exact ⟨h1.symm, h2.symm, trivial⟩

lemma contains_cc_append_mp (c : Char) : ∀ (a b : List Char),
    containsSub [c, c] (a ++ b) = true →
      containsSub [c, c] a = true ∨ containsSub [c, c] b = true ∨
        (a.getLast? = some c ∧ b.head? = some c) := by
  intro a
  induction a with
  | nil => intro b h; exact Or.inr (Or.inl (by simpa using h))
  | cons x a' ih =>
    intro b h
    rw [List.cons_append] at h
    simp only [containsSub, Bool.or_eq_true] at h
    rcases h with h | h
    · rw [startsWith_cc_cons] at h
      obtain ⟨hx, hh⟩ := h
      cases a' with
      | nil =>
        refine Or.inr (Or.inr ⟨?_, by simpa using hh⟩)
        simp [hx]
      | cons y t =>
        rw [List.head?_append_of_ne_nil (y :: t) (by simp)] at hh
        simp only [List.head?_cons, Option.some.injEq] at hh
        refine Or.inl ?_
        simp only [containsSub, Bool.or_eq_true]
        exact Or.inl ((startsWith_cc_cons c x (y :: t)).mpr (by simp [hx, hh]))
    · rcases ih b h with h' | h' | ⟨hl, hh⟩
      · refine Or.inl ?_
        simp only [containsSub, Bool.or_eq_true]
        exact Or.inr h'
      · exact Or.inr (Or.inl h')
      · cases a' with
        | nil => simp at hl
        | cons y t =>
          refine Or.inr (Or.inr ⟨?_, hh⟩)
          rw [List.getLast?_cons_cons]
          exact hl

lemma mem_of_contains_cc (c : Char) : ∀ (s : List Char),
    containsSub [c, c] s = true → c ∈ s := by
  intro s
  induction s with
  | nil => intro h; simp [containsSub, listStartsWith] at h
  | cons x cs ih =>
    intro h
    simp only [containsSub, Bool.or_eq_true, startsWith_cc_cons] at h
    rcases h with ⟨h1, _⟩ | h
    · exact h1 ▸ List.mem_cons_self x cs
    · exact List.mem_cons_of_mem x (ih h)

lemma head?_mem {α : Type} {l : List α} {x : α} (h : l.head? = some x) :
    x ∈ l := by
  cases l with
  | nil => simp at h
  | cons a t => simp at h; simp [h]

lemma getLast?_mem {α : Type} : ∀ {l : List α} {x : α},
    l.getLast? = some x → x ∈ l := by
  intro l
  induction l with
  | nil => intro x h; simp at h
  | cons a t ih =>
    intro x h
    cases t with
    | nil => simp at h; simp [h]
    | cons b u =>
      rw [List.getLast?_cons_cons] at h
      exact List.mem_cons_of_mem a (ih h)

/-! Compiled expression texts are nonempty, contain no doubled ampersand or
    doubled pipe, and start and end with characters other than those. -/

/-- Invariant carried through the expression compiler for the absence of
    short-circuit operator tokens. -/
def wgslOK (s : List Char) : Prop :=
  s ≠ [] ∧ containsSub ['&', '&'] s = false ∧ containsSub ['|', '|'] s = false ∧
  s.head? ≠ some '&' ∧ s.head? ≠ some '|' ∧
  s.getLast? ≠ some '&' ∧ s.getLast? ≠ some '|'

instance (s : List Char) : Decidable (wgslOK s) := by
  unfold wgslOK
  infer_instance

lemma wgslOK_append {x y : List Char} (hx : wgslOK x) (hy : wgslOK y) :
    wgslOK (x ++ y) := by
  obtain ⟨hxne, hxa, hxb, hxh1, hxh2, hxl1, hxl2⟩ := hx
  obtain ⟨hyne, hya, hyb, hyh1, hyh2, hyl1, hyl2⟩ := hy
  refine ⟨by simp [hxne], ?_, ?_, ?_, ?_, ?_, ?_⟩
  · by_contra hc
    rw [Bool.not_eq_false] at hc
    rcases contains_cc_append_mp '&' x y hc with h | h | ⟨_, h2⟩
    · rw [hxa] at h; exact Bool.false_ne_true h
    · rw [hya] at h; exact Bool.false_ne_true h
    · exact hyh1 h2
  · by_contra hc
    rw [Bool.not_eq_false] at hc
    rcases contains_cc_append_mp '|' x y hc with h | h | ⟨_, h2⟩
    · rw [hxb] at h; exact Bool.false_ne_true h
    · rw [hyb] at h; exact Bool.false_ne_true h
    · exact hyh2 h2
  · rw [List.head?_append_of_ne_nil x hxne]; exact hxh1
  · rw [List.head?_append_of_ne_nil x hxne]; exact hxh2
  · rw [List.getLast?_append_of_ne_nil x hyne]; exact hyl1
  · rw [List.getLast?_append_of_ne_nil x hyne]; exact hyl2

lemma digitChar10_ne : ∀ d, d < 10 →
    digitChar10 d ≠ '&' ∧ digitChar10 d ≠ '|' := by decide

lemma decChars_mem_digit : ∀ (fuel n : Nat) (c : Char), c ∈ decChars fuel n →
    ∃ d, d < 10 ∧ c = digitChar10 d := by
  intro fuel
  induction fuel with
  | zero => intro n c h; simp [decChars] at h
  | succ f ih =>
    intro n c h
    by_cases h0 : n = 0
    · simp [decChars, h0] at h
    · simp only [decChars, h0, if_false, List.mem_append,
        List.mem_singleton] at h
      rcases h with h | h
      · exact ih (n / 10) c h
      · exact ⟨n % 10, Nat.mod_lt n (by omega), h⟩

lemma decRepr_mem_digit (n : Nat) (c : Char) (h : c ∈ decRepr n) :
    ∃ d, d < 10 ∧ c = digitChar10 d := by
  unfold decRepr at h
  by_cases h0 : n = 0
  · simp [h0] at h
    exact ⟨0, by omega, by subst h; decide⟩
  · simp only [h0, if_false] at h
    exact decChars_mem_digit n n c h

lemma decRepr_ne_nil (n : Nat) : decRepr n ≠ [] := by
  unfold decRepr
  by_cases h0 : n = 0
  · simp [h0]
  · simp only [h0, if_false]
    cases hn : n with
    | zero => exact absurd hn h0
    | succ m =>
      simp [decChars, h0]

lemma wgslOK_decRepr (n : Nat) : wgslOK (decRepr n) := by
  have hmem : ∀ c ∈ decRepr n, c ≠ '&' ∧ c ≠ '|' := by
    intro c hc
    obtain ⟨d, hd, rfl⟩ := decRepr_mem_digit n c hc
    exact digitChar10_ne d hd
  refine ⟨decRepr_ne_nil n, ?_, ?_, ?_, ?_, ?_, ?_⟩
  · by_contra hc
    rw [Bool.not_eq_false] at hc
    exact (hmem '&' (mem_of_contains_cc '&' _ hc)).1 rfl
  · by_contra hc
    rw [Bool.not_eq_false] at hc
    exact (hmem '|' (mem_of_contains_cc '|' _ hc)).2 rfl
  · intro hc; exact (hmem '&' (head?_mem hc)).1 rfl
  · intro hc; exact (hmem '|' (head?_mem hc)).2 rfl
  · intro hc; exact (hmem '&' (getLast?_mem hc)).1 rfl
  · intro hc; exact (hmem '|' (getLast?_mem hc)).2 rfl

/-- Every compiled expression text satisfies the operator-token invariant. -/
lemma Expr.to_shader_wgslOK (e : Expr) : wgslOK e.to_shader.data := by
  induction e with
  | U32 val =>
    show wgslOK (String.mk (decRepr val) ++ "u").data
    rw [String.data_append]
    exact wgslOK_append (wgslOK_decRepr val) (by decide)
  | Alive => decide
  | Neighbors => decide
  | Gt lhs rhs ihl ihr =>
    show wgslOK ("u32((" ++ lhs.to_shader ++ ") > (" ++ rhs.to_shader ++ "))").data
    simp only [String.data_append]
    exact wgslOK_append (wgslOK_append (wgslOK_append (wgslOK_append
      (by decide) ihl) (by decide)) ihr) (by decide)
  | Gte lhs rhs ihl ihr =>
    show wgslOK ("u32((" ++ lhs.to_shader ++ ") >= (" ++ rhs.to_shader ++ "))").data
    simp only [String.data_append]
    exact wgslOK_append (wgslOK_append (wgslOK_append (wgslOK_append
      (by decide) ihl) (by decide)) ihr) (by decide)
  | Lt lhs rhs ihl ihr =>
    show wgslOK ("u32((" ++ lhs.to_shader ++ ") < (" ++ rhs.to_shader ++ "))").data
    simp only [String.data_append]
    exact wgslOK_append (wgslOK_append (wgslOK_append (wgslOK_append
      (by decide) ihl) (by decide)) ihr) (by decide)
  | Lte lhs rhs ihl ihr =>
    show wgslOK ("u32((" ++ lhs.to_shader ++ ") <= (" ++ rhs.to_shader ++ "))").data
    simp only [String.data_append]
    exact wgslOK_append (wgslOK_append (wgslOK_append (wgslOK_append
      (by decide) ihl) (by decide)) ihr) (by decide)
  | And lhs rhs ihl ihr =>
    show wgslOK ("((" ++ lhs.to_shader ++ ") & (" ++ rhs.to_shader ++ "))").data
    simp only [String.data_append]
    exact wgslOK_append (wgslOK_append (wgslOK_append (wgslOK_append
      (by decide) ihl) (by decide)) ihr) (by decide)
  | Or lhs rhs ihl ihr =>
    show wgslOK ("((" ++ lhs.to_shader ++ ") | (" ++ rhs.to_shader ++ "))").data
    simp only [String.data_append]
    exact wgslOK_append (wgslOK_append (wgslOK_append (wgslOK_append
      (by decide) ihl) (by decide)) ihr) (by decide)
  | Equal lhs rhs ihl ihr =>
    show wgslOK ("u32((" ++ lhs.to_shader ++ ") == (" ++ rhs.to_shader ++ "))").data
    simp only [String.data_append]
    exact wgslOK_append (wgslOK_append (wgslOK_append (wgslOK_append
      (by decide) ihl) (by decide)) ihr) (by decide)

instance (pat : List Char) : Decidable (borderFree pat) := by
  unfold borderFree
  infer_instance

/-! Claim theorems. -/

/-- C2: Expr::to_shader equals the per-variant reference definition of spec
    section 4.1: Const compiles to the decimal text of the number followed by
    the unsigned suffix, Alive and NeighborCount compile to the fixed
    identifiers, and every comparison compiles to the u32-cast, fully
    parenthesized textual form with the compiled operands substituted. -/
theorem expr_compiler_matches_spec :
    (∀ e : Expr, e.to_shader = exprSpecCompile e) ∧
    (∀ n : Nat, (Expr.U32 n).to_shader = Nat.repr n ++ "u") := by
  refine ⟨expr_to_shader_eq_spec, fun n => ?_⟩
  show String.mk (decRepr n) ++ "u" = Nat.repr n ++ "u"
  rw [decRepr_eq_repr]

/-- C3: Statement::to_shader equals the reference definition: Noop compiles to
    the empty string, SetResult to a result assignment, and IfThenElse to a
    conditional with both blocks always textually present, even when a branch
    compiles to the empty string. -/
theorem stmt_compiler_matches_spec :
    (∀ s : Statement, s.to_shader = stmtSpecCompile s) ∧
    Statement.Void.to_shader = "" ∧
    (∀ e : Expr, (Statement.SetResult e).to_shader =
      "result = " ++ e.to_shader ++ ";") ∧
    (∀ (c : Expr) (t f : Statement), (Statement.IfThenElse c t f).to_shader =
      "if (" ++ c.to_shader ++ ") \x7b " ++ t.to_shader ++
        " \x7d else \x7b " ++ f.to_shader ++ " \x7d") := by
  exact ⟨stmt_to_shader_eq_spec, rfl, fun e => rfl, fun c t f => rfl⟩

/-- C4: And and Or compile to the fully parenthesized bitwise forms, and no
    compiled expression text ever contains a doubled ampersand or doubled pipe
    (the logical short-circuit operator tokens). -/
theorem bitwise_never_logical_ops :
    (∀ a b : Expr, (Expr.And a b).to_shader =
      "((" ++ a.to_shader ++ ") & (" ++ b.to_shader ++ "))") ∧
    (∀ a b : Expr, (Expr.Or a b).to_shader =
      "((" ++ a.to_shader ++ ") | (" ++ b.to_shader ++ "))") ∧
    (∀ e : Expr, containsSub ['&', '&'] e.to_shader.data = false ∧
      containsSub ['|', '|'] e.to_shader.data = false) := by
  refine ⟨fun a b => rfl, fun a b => rfl, fun e => ?_⟩
  obtain ⟨_, h1, h2, _⟩ := Expr.to_shader_wgslOK e
  exact ⟨h1, h2⟩

/-- C5: the compilers are total pure functions: the fuel-indexed variants,
    which fail explicitly on fuel exhaustion, succeed on every tree when given
    fuel equal to the tree depth, returning exactly the compiled string. -/
theorem compiler_total_depth_bounded :
    (∀ e : Expr, Expr.to_shader_fuel e.depth e = some e.to_shader) ∧
    (∀ s : Statement, Statement.to_shader_fuel s.depth s = some s.to_shader) := by
  exact ⟨fun e => expr_to_shader_fuel_complete e e.depth (Nat.le_refl _),
    fun s => stmt_to_shader_fuel_complete s s.depth (Nat.le_refl _)⟩

/-- C6: get_imports_from_str returns exactly the import captures of the lines
    matching the import regex, in first-seen order with duplicates preserved,
    and as import path the capture of the last line matching the
    define_import_path regex (none when no line matches). -/
theorem import_scan_characterization : ∀ shader : String,
    get_imports_from_str shader =
      ⟨importCapturesSpec shader, (definePathCapturesSpec shader).getLast?⟩ := by
  intro shader
  unfold get_imports_from_str importCapturesSpec definePathCapturesSpec
  rw [foldl_scanLine]
  have hpath : lastOr ((strLines shader).filterMap definePathCaptureLine) none =
      ((strLines shader).filterMap definePathCaptureLine).getLast? := by
    rw [lastOr_eq_getLast?]
    cases h : ((strLines shader).filterMap definePathCaptureLine).getLast? <;>
      rfl
  rw [List.nil_append, hpath]

/-- C7: load_shader_inner coincides with the spec resolution algorithm (read
    root, scan once, read every import of the root file, substitute each
    directive text in first-seen order, single pass, never rescanning imported
    contents), and a root file with no imports resolves to the raw read. -/
theorem resolution_matches_spec :
    (∀ (fs : String → Option String) (root p : String),
      load_shader_inner fs root p = resolveSpec fs root p) ∧
    (∀ (fs : String → Option String) (root p : String) (c : String),
      fs (root ++ "/" ++ p) = some c →
      (get_imports_from_str c).imports = [] →
      load_shader_inner fs root p = .ok c) := by
  constructor
  · intro fs root p
    unfold load_shader_inner resolveSpec
    cases h : fs (root ++ "/" ++ p) with
    | none => rfl
    | some c =>
      exact expandImports_eq_readAll fs
        (importDir root (get_imports_from_str c).import_path)
        (get_imports_from_str c).imports c
  · intro fs root p c h1 h2
    unfold load_shader_inner
    rw [h1]
    dsimp only
    rw [h2]
    rfl

/-- C8: when a rule statement is supplied, load_shader_with_dsl replaces every
    occurrence of the placeholder token in the import-expanded template with
    the compiled rule text — zero, one or many occurrences, with no error for
    counts other than one — and the rest of the text is unchanged:
    a template split into placeholder-free segments joined by the token
    resolves to the same segments joined by the compiled rule. -/
theorem placeholder_replacement :
    ∀ (fs : String → Option String) (root p : String) (dsl : Statement)
      (parts : List (List Char)) (c : String),
      (∀ x ∈ parts, containsSub "\x7bPLACEHOLDER\x7d".data x = false) →
      load_shader_inner fs root p = .ok c →
      c.data = List.intercalate "\x7bPLACEHOLDER\x7d".data parts →
      load_shader_with_dsl fs root p dsl =
        .ok (String.mk (List.intercalate dsl.to_shader.data parts)) := by
  intro fs root p dsl parts c hparts hok hc
  unfold load_shader_with_dsl
  rw [hok]
  dsimp only
  unfold strReplace
  congr 1
  congr 1
  rw [hc]
  exact replace_intercalate "\x7bPLACEHOLDER\x7d".data dsl.to_shader.data
    (by decide) (by decide) parts hparts _ (Nat.le_refl _)

/-- C9: the assembler never returns a partial result: a missing root file
    surfaces as a propagated error, a missing import target terminates the
    process, and a successful result implies the root file and every import
    target of it were read. -/
theorem asset_read_failure_semantics :
    ∀ (fs : String → Option String) (root p : String),
      (fs (root ++ "/" ++ p) = none → load_shader_inner fs root p = .ioError) ∧
      (∀ (c imp : String), fs (root ++ "/" ++ p) = some c →
        imp ∈ (get_imports_from_str c).imports →
        fs (importDir root (get_imports_from_str c).import_path ++ "/" ++ imp) =
          none →
        load_shader_inner fs root p = .processExit) ∧
      (∀ t : String, load_shader_inner fs root p = .ok t →
        ∃ c, fs (root ++ "/" ++ p) = some c ∧
          ∀ imp ∈ (get_imports_from_str c).imports,
            ∃ ic, fs (importDir root (get_imports_from_str c).import_path ++
              "/" ++ imp) = some ic) := by
  intro fs root p
  refine ⟨?_, ?_, ?_⟩
  · intro h
    unfold load_shader_inner
    rw [h]
  · intro c imp h1 h2 h3
    unfold load_shader_inner
    rw [h1]
    dsimp only
    exact expandImports_exit_of_mem fs _ _ c imp h2 h3
  · intro t h
    unfold load_shader_inner at h
    cases h1 : fs (root ++ "/" ++ p) with
    | none => rw [h1] at h; simp at h
    | some c =>
      rw [h1] at h
      dsimp only at h
      exact ⟨c, rfl, expandImports_ok_reads fs _ _ c t h⟩

/-- C10 (amended): for a root file whose scan records exactly one import
    target t and whose text does not contain the exact substring
    "#import t", the import file read is still attempted — a read failure
    terminates the process — and on a successful read the substitution is a
    no-op, the returned text being the original contents with the directive
    line retained. -/
theorem unmatched_directive_noop :
    ∀ (fs : String → Option String) (root p c t : String),
      fs (root ++ "/" ++ p) = some c →
      (get_imports_from_str c).imports = [t] →
      containsSub ("#import " ++ t).data c.data = false →
      (fs (importDir root (get_imports_from_str c).import_path ++ "/" ++ t) =
          none →
        load_shader_inner fs root p = .processExit) ∧
      (∀ ic : String,
        fs (importDir root (get_imports_from_str c).import_path ++ "/" ++ t) =
          some ic →
        load_shader_inner fs root p = .ok c) := by
  intro fs root p c t h1 h2 h3
  constructor
  · intro hnone
    unfold load_shader_inner
    rw [h1]
    dsimp only
    rw [h2]
    simp [expandImports, hnone]
  · intro ic hsome
    unfold load_shader_inner
    rw [h1]
    dsimp only
    rw [h2]
    simp only [expandImports, hsome]
    rw [strReplace_eq_self c ("#import " ++ t) ic h3]

/-! Concrete file systems for witnesses and counterexamples. -/

/-- A file system with a single import-free template. -/
def plainFS : String → Option String := fun path =>
  if path = "assets/plain.wgsl" then some "hello" else none

/-- A file system with a template holding two placeholder occurrences. -/
def dslFS : String → Option String := fun path =>
  if path = "assets/t.wgsl" then some "A\x7bPLACEHOLDER\x7dB\x7bPLACEHOLDER\x7d"
  else none

/-- A file system whose template names an import target that does not exist. -/
def missFS : String → Option String := fun path =>
  if path = "assets/broken.wgsl" then some "#import lib" else none

/-- A file system whose template matches the import regex with whitespace
    between the hash sign and the keyword, and whose import file exists. -/
def unmatchedFS : String → Option String := fun path =>
  if path = "assets/m.wgsl" then some "# import lib\nx"
  else if path = "assets/lib" then some "LIB"
  else none

/-- A file system where one directive line is matched by the scan but lacks
    the exact substitution substring, while a second import target occurs
    textually inside that very line. -/
def rewrittenFS : String → Option String := fun path =>
  if path = "assets/main.wgsl" then some "# import a#import b\n#import b"
  else if path = "assets/a#import b" then some "A"
  else if path = "assets/b" then some "B"
  else none

/-- A file system with the Conway rule template. -/
def lifeFS : String → Option String := fun path =>
  if path = "assets/life.wgsl" then some "PRE \x7bPLACEHOLDER\x7d POST" else none

/-- Compiled true branch of the Conway ruleset. -/
def conwayTrueBranch : String :=
  "result = ((u32((num_neighbors) == (2u))) | (u32((num_neighbors) == (3u))));"

/-- Compiled false branch of the Conway ruleset. -/
def conwayFalseBranch : String := "result = u32((num_neighbors) == (3u));"

/-- C7 witness: an import-free template resolves to the raw file read. -/
theorem resolution_matches_spec_witness :
    load_shader_inner plainFS "assets" "plain.wgsl" = LoadResult.ok "hello" :=
  resolution_matches_spec.2 plainFS "assets" "plain.wgsl" "hello"
    (by decide) (by decide)

/-- C8 witness: both placeholder occurrences of a concrete template are
    replaced by the compiled rule text and the rest is unchanged. -/
theorem placeholder_replacement_witness :
    load_shader_with_dsl dslFS "assets" "t.wgsl" (.SetResult (.U32 1)) =
      LoadResult.ok "Aresult = 1u;Bresult = 1u;" :=
  (placeholder_replacement dslFS "assets" "t.wgsl" (.SetResult (.U32 1))
    ["A".data, "B".data, []] "A\x7bPLACEHOLDER\x7dB\x7bPLACEHOLDER\x7d"
    (by decide) (by decide) (by decide)).trans (by decide)

/-- C9 witness: a missing import target terminates the process. -/
theorem asset_read_failure_semantics_witness :
    load_shader_inner missFS "assets" "broken.wgsl" = LoadResult.processExit :=
  (asset_read_failure_semantics missFS "assets" "broken.wgsl").2.1
    "#import lib" "lib" (by decide) (by decide) (by decide)

/-- C10 witness: a directive with whitespace between the hash sign and the
    keyword is scanned, its file is read, and the text is returned
    unchanged. -/
theorem unmatched_directive_noop_witness :
    load_shader_inner unmatchedFS "assets" "m.wgsl" =
      LoadResult.ok "# import lib\nx" :=
  (unmatched_directive_noop unmatchedFS "assets" "m.wgsl" "# import lib\nx"
    "lib" (by decide) (by decide) (by decide)).2 "LIB" (by decide)

/-- C10 counterexample: a root file with a directive line that the scan
    matches (capture "a#import b") and whose text lacks the exact substring
    "#import a#import b", yet whose returned text does not retain the
    directive line: the substitution for the second import target rewrites
    part of that line, producing "# import aB".  The claim that the returned
    text always retains the original directive line unchanged is false. -/
theorem unmatched_directive_claim_false :
    importCaptureLine "# import a#import b" = some "a#import b" ∧
    (get_imports_from_str "# import a#import b\n#import b").imports =
      ["a#import b", "b"] ∧
    containsSub ("#import " ++ "a#import b").data
      ("# import a#import b\n#import b").data = false ∧
    load_shader_inner rewrittenFS "assets" "main.wgsl" =
      LoadResult.ok "# import aB\nB" ∧
    containsSub "# import a#import b".data ("# import aB\nB").data = false := by
  decide

/-- C1: for a template with exactly one placeholder occurrence and the
    built-in Conway ruleset, the resolved text is the template with an
    if (is_alive) block spliced in whose true branch is a single result
    assignment mentioning both the comparison to 2u and to 3u joined by the
    bitwise OR form, and whose false branch is a single result assignment
    mentioning only the comparison to 3u. -/
theorem conway_template_resolution :
    countOcc "\x7bPLACEHOLDER\x7d".data "PRE \x7bPLACEHOLDER\x7d POST".data = 1 ∧
    load_shader_with_dsl lifeFS "assets" "life.wgsl" conways_game_of_life =
      LoadResult.ok ("PRE " ++ ("if (is_alive) \x7b " ++ conwayTrueBranch ++
        " \x7d else \x7b " ++ conwayFalseBranch ++ " \x7d") ++ " POST") ∧
    countOcc "result = ".data conwayTrueBranch.data = 1 ∧
    countOcc "result = ".data conwayFalseBranch.data = 1 ∧
    containsSub "== (2u)".data conwayTrueBranch.data = true ∧
    containsSub "== (3u)".data conwayTrueBranch.data = true ∧
    containsSub ") | (".data conwayTrueBranch.data = true ∧
    containsSub "== (3u)".data conwayFalseBranch.data = true ∧
    containsSub "2u".data conwayFalseBranch.data = false ∧
    containsSub "|".data conwayFalseBranch.data = false := by
  decide
